import Mathlib

/- Shallow embedding of `src/sprites/create_spritesheets.py`.

   Strings are modelled over their character lists; Python's arbitrary
   precision integers are `Nat` (and `Int` where a value can go below zero);
   the regular expressions of the source are modelled character by character,
   restricted to ASCII (the inputs of this pipeline are ASCII label files).
   Filesystem and image-buffer operations are out of scope, as the spec
   declares; the pure layout, parsing and serialisation logic is embedded. -/

namespace Sprites

/-- Python's whitespace class, used by `str.strip` and the regex class `\s`
(ASCII part): space, tab, newline, carriage return, vertical tab, form feed. -/
def isSpaceChar (c : Char) : Bool :=
  c == ' ' || c == '\t' || c == '\n' || c == '\r' || c.toNat == 11 || c.toNat == 12

/-- Value of a run of decimal digits, as Python `int(...)`. -/
def digitsToNat (ds : List Char) : Nat :=
  ds.foldl (fun a c => 10 * a + (c.toNat - 48)) 0

/-- Lowercasing of a whole string, as Python `str.lower` (ASCII part). -/
def lowerStr (s : String) : String :=
  String.mk (s.toList.map Char.toLower)

/-- One element of the list produced by `natural_sort_key`: a run of non-digit
characters (lowercased and stored as code points, because Python compares
strings by code point) or the integer value of a run of digits. -/
abbrev KeyElem := Sum (List Nat) Nat

/-- `re.split(r'(\d+)', s)` over the character list, built from the right:
the result alternates non-digit runs and digit runs (kept as characters here).
`re.split` with a capturing group always begins and ends with a possibly empty
non-digit piece; a missing leading empty piece is restored in
`natural_sort_key` below. -/
def splitRaw : List Char → List (Sum (List Char) (List Char))
  | [] => [Sum.inl []]
  | c :: rest =>
    if c.isDigit then
      match splitRaw rest with
      | Sum.inr ds :: tail => Sum.inr (c :: ds) :: tail
      | acc => Sum.inr [c] :: acc
    else
      match splitRaw rest with
      | Sum.inl t :: tail => Sum.inl (c :: t) :: tail
      | acc => Sum.inl [c] :: acc

/-- `natural_sort_key` from the source:
`[int(c) if c.isdigit() else c.lower() for c in re.split(r'(\d+)', s)]`. -/
def natural_sort_key (s : String) : List KeyElem :=
  let raw := splitRaw s.toList
  let raw2 :=
    match raw with
    | Sum.inr _ :: _ => Sum.inl [] :: raw
    | _ => raw
  raw2.map fun e =>
    match e with
    | Sum.inl t => Sum.inl (t.map fun c => (Char.toLower c).toNat)
    | Sum.inr d => Sum.inr (digitsToNat d)

/-- Three-way comparison of naturals (Python `<` / `>` on ints). -/
def cmpNat (m n : Nat) : Ordering :=
  if m < n then Ordering.lt else if n < m then Ordering.gt else Ordering.eq

/-- Lexicographic comparison of lists from a comparison of elements: Python's
ordering of lists and of strings (a strict prefix orders first). -/
def cmpLex (cmp : α → α → Ordering) : List α → List α → Ordering
  | [], [] => Ordering.eq
  | [], _ :: _ => Ordering.lt
  | _ :: _, [] => Ordering.gt
  | x :: xs, y :: ys =>
    match cmp x y with
    | Ordering.eq => cmpLex cmp xs ys
    | o => o

/-- Comparison of key elements. Python compares ints numerically and strings
by code point. Two keys alternate text and number runs in the same pattern,
so a text run and a number run never meet at the same position (in Python a
mixed comparison would raise); the mixed cases below are unobservable. -/
def cmpElem : KeyElem → KeyElem → Ordering
  | Sum.inl s, Sum.inl t => cmpLex cmpNat s t
  | Sum.inr m, Sum.inr n => cmpNat m n
  | Sum.inl _, Sum.inr _ => Ordering.lt
  | Sum.inr _, Sum.inl _ => Ordering.gt

/-- Comparison of two names by their natural sort keys. -/
def natCmp (a b : String) : Ordering :=
  cmpLex cmpElem (natural_sort_key a) (natural_sort_key b)

/-- `a` sorts no later than `b` under the natural sort key. -/
def natLE (a b : String) : Bool :=
  match natCmp a b with
  | Ordering.gt => false
  | _ => true

/-- Insertion into a list already sorted by `natLE`. -/
def insertByKey (x : String) : List String → List String
  | [] => [x]
  | y :: ys => if natLE y x then y :: insertByKey x ys else x :: y :: ys

/-- `sorted(..., key=natural_sort_key)` modelled as insertion sort by `natLE`. -/
def sortByKey : List String → List String
  | [] => []
  | x :: xs => insertByKey x (sortByKey xs)

/-- `math.ceil(math.sqrt n)` in exact integer arithmetic. -/
def ceilSqrt (n : Nat) : Nat :=
  if Nat.sqrt n * Nat.sqrt n = n then Nat.sqrt n else Nat.sqrt n + 1

/-- `math.ceil(a / b)` in exact integer arithmetic. -/
def ceilDiv (a b : Nat) : Nat := (a + b - 1) / b

/-- One placement record of an atlas: name and pixel rectangle. Coordinates
are `Int` because the legacy translator can produce a negative `y` (a label
line whose integer part is `0` gives `row_num = -1`). -/
structure AtlasEntry where
  name : String
  x : Int
  y : Int
  w : Nat
  h : Nat
deriving DecidableEq

/-- The packing loop shared by `create_spritesheet_from_dir` and
`create_spritesheet_from_categorized_dirs` (the two loops are identical):
`for idx, fname in enumerate(files): col = idx % cols; row = idx // cols ...`. -/
def packLoop (w h cols : Nat) : Nat → List String → List AtlasEntry
  | _, [] => []
  | idx, name :: rest =>
    { name := name, x := ((idx % cols * w : Nat) : Int),
      y := ((idx / cols * h : Nat) : Int), w := w, h := h }
      :: packLoop w h cols (idx + 1) rest

/-- All placement records for a collected name sequence. -/
def packEntries (names : List String) (w h : Nat) : List AtlasEntry :=
  packLoop w h (ceilSqrt names.length) 0 names

/-- One atlas record line: `f"{name}\t{x}\t{y}\t{w}\t{h}"`. -/
def entryLine (e : AtlasEntry) : String :=
  e.name ++ "\t" ++ toString e.x ++ "\t" ++ toString e.y ++ "\t" ++
    toString e.w ++ "\t" ++ toString e.h

/-- The atlas text: five header lines, the record lines joined with newlines,
one trailing newline (`"\n".join(atlas_lines) + "\n"`). The fifth header line
contains the literal two-character sequences `\t` (Python `"\\t"`). -/
def atlasFileText (pngName : String) (count sheetW sheetH cellW cellH : Nat)
    (entries : List AtlasEntry) : String :=
  "# Sprite Sheet Atlas: " ++ pngName ++ "\n" ++
  "# Total sprites: " ++ toString count ++ "\n" ++
  "# Sheet size: " ++ toString sheetW ++ "x" ++ toString sheetH ++ "\n" ++
  "# Icon size: " ++ toString cellW ++ "x" ++ toString cellH ++ "\n" ++
  "# Format: name\\tx\\ty\\twidth\\theight\n" ++
  String.intercalate "\n" (entries.map entryLine) ++ "\n"

/-- `os.path.splitext(fname)[0]`: drop the extension after the last dot;
leading dots of the name never start an extension. -/
def stripExt (f : String) : String :=
  let cs := f.toList
  let lead := cs.takeWhile (fun c => c == '.')
  let rest := cs.dropWhile (fun c => c == '.')
  let revTail := rest.reverse.takeWhile (fun c => !(c == '.'))
  if revTail.length == rest.length then f
  else String.mk (lead ++ rest.take (rest.length - revTail.length - 1))

/-- `f.lower().endswith('.png')`. -/
def isPngName (f : String) : Bool :=
  match (lowerStr f).toList.reverse with
  | 'g' :: 'n' :: 'p' :: '.' :: _ => true
  | _ => false

/-- Result of packing one sheet: canvas size, records, atlas text. -/
structure SheetResult where
  sheetW : Nat
  sheetH : Nat
  entries : List AtlasEntry
  atlasText : String
deriving DecidableEq

/-- `create_spritesheet_from_dir`: filter the `.png` files, sort them by the
natural key, return `none` ("No PNGs found", nothing written) on an empty
collection, otherwise the canvas size, the placement records and the atlas
text. `nameFn` models the optional `name_fn` argument; `none` means the
default `os.path.splitext(fname)[0]`. -/
def create_spritesheet_from_dir (files : List String) (w h : Nat)
    (pngName : String) (nameFn : Option (String → String)) : Option SheetResult :=
  let sorted := sortByKey (files.filter isPngName)
  if sorted.isEmpty then none
  else
    let names := sorted.map fun f =>
      match nameFn with
      | some g => g f
      | none => stripExt f
    let count := names.length
    let cols := ceilSqrt count
    let rows := ceilDiv count cols
    let entries := packEntries names w h
    some { sheetW := cols * w, sheetH := rows * h, entries := entries,
           atlasText := atlasFileText pngName count (cols * w) (rows * h) w h entries }

/-- `l.strip()` over the character list. -/
def pyStripL (cs : List Char) : List Char :=
  ((cs.dropWhile isSpaceChar).reverse.dropWhile isSpaceChar).reverse

/-- Python `str.strip`. -/
def pyStrip (s : String) : String := String.mk (pyStripL s.toList)

/-- `re.match(r'^\d+\.[a-z]', line)` succeeds: one or more digits, a dot, one
lowercase letter. `\d+` is effectively maximal because the character after
the digits must be the non-digit `.`. -/
def matchesRowCol (l : String) : Bool :=
  let cs := l.toList
  let ds := cs.takeWhile Char.isDigit
  match cs.dropWhile Char.isDigit with
  | '.' :: c :: _ => !ds.isEmpty && ('a' ≤ c && c ≤ 'z')
  | _ => false

/-- `re.match(r'^\d+\.\s', line)` succeeds. -/
def matchesRowNum (l : String) : Bool :=
  let cs := l.toList
  let ds := cs.takeWhile Char.isDigit
  match cs.dropWhile Char.isDigit with
  | '.' :: c :: _ => !ds.isEmpty && isSpaceChar c
  | _ => false

/-- The tail regex `\s+(.+)$`: one or more whitespace characters, then the
greedy rest as the captured group, which must be non-empty. When everything up
to the end of the line is whitespace, backtracking lets `.+` capture the last
whitespace character, provided at least one whitespace character remains for
`\s+`. -/
def matchSpacePlusRest (cs : List Char) : Option (List Char) :=
  let ws := cs.takeWhile isSpaceChar
  let rest := cs.dropWhile isSpaceChar
  if ws.isEmpty then none
  else if !rest.isEmpty then some rest
  else
    match ws with
    | _ :: _ :: _ => some [ws.getLastD ' ']
    | _ => none

/-- `re.match(r'^(\d+)\.([a-z])\.?\s+(.+)$', line)`: the integer part, the
letter index `ord(letter) - ord('a')`, and the captured label text. The
optional dot is consumed whenever present: if `\s+` fails after it, the
backtracked alternative restarts at the dot itself, which is not whitespace,
so the whole match fails either way. -/
def parseGridRef (l : String) : Option (Nat × Nat × String) :=
  let cs := l.toList
  let ds := cs.takeWhile Char.isDigit
  if ds.isEmpty then none
  else
    match cs.dropWhile Char.isDigit with
    | '.' :: c :: rest =>
      if 'a' ≤ c && c ≤ 'z' then
        let body :=
          match rest with
          | '.' :: r2 => r2
          | _ => rest
        match matchSpacePlusRest body with
        | some nm => some (digitsToNat ds, c.toNat - 'a'.toNat, String.mk nm)
        | none => none
      else none
    | _ => none

/-- `re.match(r'^(\d+)\.\s+(.+)$', line)`: the integer part and the captured
label text. -/
def parseRowNum (l : String) : Option (Nat × String) :=
  let cs := l.toList
  let ds := cs.takeWhile Char.isDigit
  if ds.isEmpty then none
  else
    match cs.dropWhile Char.isDigit with
    | '.' :: rest =>
      match matchSpacePlusRest rest with
      | some nm => some (digitsToNat ds, String.mk nm)
      | none => none
    | _ => none

/-- Records from one line in GridRef format:
`row_num = int(m.group(1)) - 1`, `col_num = ord(m.group(2)) - ord('a')`,
`name = m.group(3).strip()`, one record at `(col*ts, row*ts)`. -/
def gridRefLine (ts : Nat) (l : String) : List AtlasEntry :=
  match parseGridRef l with
  | some (i, c, nm) =>
    [{ name := pyStrip nm, x := ((c * ts : Nat) : Int),
       y := ((i : Int) - 1) * (ts : Int), w := ts, h := ts }]
  | none => []

/-- Records from one line in RowLabel format: one per column `0..cols-1`,
named `f"{name} [frame {col_num}]"`. -/
def rowLabelLine (ts cols : Nat) (l : String) : List AtlasEntry :=
  match parseRowNum l with
  | some (i, nm) =>
    (List.range cols).map fun c =>
      { name := pyStrip nm ++ " [frame " ++ toString c ++ "]",
        x := ((c * ts : Nat) : Int), y := ((i : Int) - 1) * (ts : Int),
        w := ts, h := ts }
  | none => []

/-- PlainLabel format, the records of the grid row `rowIdx`, displayed as row
offset `r` of its label: one record per column, named
`f"{name} [row {r}, col {c}]"`. -/
def rowStrip (ts cols rowIdx r : Nat) (name : String) : List AtlasEntry :=
  (List.range cols).map fun c =>
    { name := name ++ " [row " ++ toString r ++ ", col " ++ toString c ++ "]",
      x := ((c * ts : Nat) : Int), y := ((rowIdx * ts : Nat) : Int),
      w := ts, h := ts }

/-- PlainLabel format, the block of one label starting at `currentRow`: row
offsets `0..rowsPerGroup-1`. -/
def plainBlock (ts cols rpg currentRow : Nat) (name : String) : List AtlasEntry :=
  (List.range rpg).flatMap fun r => rowStrip ts cols (currentRow + r) r name

/-- The PlainLabel loop: `current_row` starts at 0 and advances by
`rows_per_group` for each label line. -/
def plainLabelLoop (ts cols rpg : Nat) : Nat → List String → List AtlasEntry
  | _, [] => []
  | currentRow, line :: rest =>
    plainBlock ts cols rpg currentRow (pyStrip line) ++
      plainLabelLoop ts cols rpg (currentRow + rpg) rest

/-- The three legacy label conventions. -/
inductive LabelFormat
  | GridRef
  | RowLabel
  | PlainLabel
deriving DecidableEq

/-- File-wide classification, evaluated once:
`has_row_col = any(re.match(r'^\d+\.[a-z]', l) for l in all_lines)`,
`has_row_num = any(re.match(r'^\d+\.\s', l) for l in all_lines)`,
tried in this priority order. -/
def classifyFormat (lines : List String) : LabelFormat :=
  let has_row_col := lines.any matchesRowCol
  let has_row_num := lines.any matchesRowNum
  if has_row_col then LabelFormat.GridRef
  else if has_row_num then LabelFormat.RowLabel
  else LabelFormat.PlainLabel

/-- `all_lines = [l.strip() for l in f if l.strip()]`. -/
def legacyLines (rawLines : List String) : List String :=
  rawLines.filterMap fun l =>
    let s := pyStrip l
    if s = "" then none else some s

/-- The record list `generate_32rogues_atlas` produces for one sheet whose
image is `sheetW x sheetH` pixels, with `cols = sheet_w // tile_size` and
`rows = sheet_h // tile_size` (floor division, no divisibility check). The
source fixes `tile_size = 32`; it is the parameter `ts` here. -/
def legacyAtlasEntries (ts sheetW sheetH : Nat) (rawLines : List String) : List AtlasEntry :=
  let cols := sheetW / ts
  let rows := sheetH / ts
  let all_lines := legacyLines rawLines
  match classifyFormat all_lines with
  | LabelFormat.GridRef => all_lines.flatMap (gridRefLine ts)
  | LabelFormat.RowLabel => all_lines.flatMap (rowLabelLine ts cols)
  | LabelFormat.PlainLabel =>
      plainLabelLoop ts cols (rows / max 1 all_lines.length) 0 all_lines

/-- The atlas text `generate_32rogues_atlas` writes for one sheet; once the
image and the label file both exist it is written unconditionally. -/
def legacyAtlasText (sheetName : String) (ts sheetW sheetH : Nat)
    (rawLines : List String) : String :=
  let entries := legacyAtlasEntries ts sheetW sheetH rawLines
  atlasFileText ("32rogues-" ++ sheetName ++ ".png") entries.length
    sheetW sheetH ts ts entries

/-- Spec-side definition, for comparison with `classifyFormat` (refinement
of the classification clause): the spec classifies GridRef when a line
matches the full shape `<integer>.<single-lowercase-letter>[.]?<space><label-text>`,
which is exactly when the full GridRef line regex parses it. -/
def specGridRefShape (l : String) : Bool := (parseGridRef l).isSome

/-- Spec-side definition: a line matches `<integer>.<space><label-text>`. -/
def specRowLabelShape (l : String) : Bool := (parseRowNum l).isSome

/-- Spec-side classification by the full line shapes, in the spec's priority
order; to be compared with the source's `classifyFormat`. -/
def specClassifyFormat (lines : List String) : LabelFormat :=
  if lines.any specGridRefShape then LabelFormat.GridRef
  else if lines.any specRowLabelShape then LabelFormat.RowLabel
  else LabelFormat.PlainLabel

/-- A line starts with `<digits>.<lowercase-letter>`: the condition the code's
classification regex `^\d+\.[a-z]` tests, stated structurally. -/
def RowColStart (l : String) : Prop :=
  ∃ ds c rest, l.toList = ds ++ '.' :: c :: rest ∧ ds ≠ [] ∧
    (∀ d ∈ ds, d.isDigit = true) ∧ 'a' ≤ c ∧ c ≤ 'z'

/-- A line starts with `<digits>.<whitespace>`: the condition the code's
classification regex `^\d+\.\s` tests, stated structurally. -/
def RowNumStart (l : String) : Prop :=
  ∃ ds c rest, l.toList = ds ++ '.' :: c :: rest ∧ ds ≠ [] ∧
    (∀ d ∈ ds, d.isDigit = true) ∧ isSpaceChar c = true

/-! Lemmas about the natural sort comparison. -/

theorem cmpNat_lt_iff (m n : Nat) : cmpNat m n = Ordering.lt ↔ m < n := by
  unfold cmpNat
  by_cases h1 : m < n
  · simp [h1]
  · by_cases h2 : n < m <;> simp [h1, h2]

theorem cmpNat_gt_iff (m n : Nat) : cmpNat m n = Ordering.gt ↔ n < m := by
  unfold cmpNat
  by_cases h1 : m < n
  · simp [h1]; omega
  · by_cases h2 : n < m <;> simp [h1, h2]

theorem cmpNat_eq_iff (m n : Nat) : cmpNat m n = Ordering.eq ↔ m = n := by
  unfold cmpNat
  by_cases h1 : m < n
  · simp [h1]; omega
  · by_cases h2 : n < m <;> simp [h1, h2] <;> omega

theorem cmpNat_swap (m n : Nat) : (cmpNat n m).swap = cmpNat m n := by
  unfold cmpNat
  by_cases h1 : m < n
  · simp [h1, Nat.lt_asymm h1, Ordering.swap]
  · by_cases h2 : n < m <;> simp [h1, h2, Ordering.swap]

theorem cmpNat_lt_trans {a b c : Nat} (h1 : cmpNat a b = Ordering.lt)
    (h2 : cmpNat b c = Ordering.lt) : cmpNat a c = Ordering.lt := by
  rw [cmpNat_lt_iff] at h1 h2 ⊢; omega

theorem cmpLex_swap (cmp : α → α → Ordering)
    (hsw : ∀ x y, (cmp y x).swap = cmp x y) :
    ∀ l1 l2, (cmpLex cmp l2 l1).swap = cmpLex cmp l1 l2 := by
  intro l1
  induction l1 with
  | nil => intro l2; cases l2 <;> rfl
  | cons x xs ih =>
    intro l2
    cases l2 with
    | nil => rfl
    | cons y ys =>
      cases h : cmp y x with
      | lt =>
        have h2 : cmp x y = Ordering.gt := by rw [← hsw x y, h]; rfl
        simp [cmpLex, h, h2, Ordering.swap]
      | gt =>
        have h2 : cmp x y = Ordering.lt := by rw [← hsw x y, h]; rfl
        simp [cmpLex, h, h2, Ordering.swap]
      | eq =>
        have h2 : cmp x y = Ordering.eq := by rw [← hsw x y, h]; rfl
        simp [cmpLex, h, h2, ih ys]

theorem cmpLex_eq_iff (cmp : α → α → Ordering)
    (heq : ∀ x y, cmp x y = Ordering.eq ↔ x = y) :
    ∀ l1 l2, cmpLex cmp l1 l2 = Ordering.eq ↔ l1 = l2 := by
  intro l1
  induction l1 with
  | nil => intro l2; cases l2 <;> simp [cmpLex]
  | cons x xs ih =>
    intro l2
    cases l2 with
    | nil => simp [cmpLex]
    | cons y ys =>
      cases h : cmp x y with
      | eq =>
        have hx : x = y := (heq x y).mp h
        subst hx
        simp [cmpLex, h, ih ys]
      | lt =>
        have hx : x ≠ y := fun hc => by rw [hc, (heq y y).mpr rfl] at h; cases h
        simp [cmpLex, h, hx]
      | gt =>
        have hx : x ≠ y := fun hc => by rw [hc, (heq y y).mpr rfl] at h; cases h
        simp [cmpLex, h, hx]

theorem cmpLex_lt_trans (cmp : α → α → Ordering)
    (heq : ∀ x y, cmp x y = Ordering.eq ↔ x = y)
    (hlt : ∀ {x y z}, cmp x y = Ordering.lt → cmp y z = Ordering.lt →
      cmp x z = Ordering.lt) :
    ∀ {l1 l2 l3 : List α}, cmpLex cmp l1 l2 = Ordering.lt →
      cmpLex cmp l2 l3 = Ordering.lt → cmpLex cmp l1 l3 = Ordering.lt := by
  intro l1
  induction l1 with
  | nil =>
    intro l2 l3 h12 h23
    cases l2 with
    | nil => exact h23
    | cons y ys =>
      cases l3 with
      | nil => simp [cmpLex] at h23
      | cons z zs => rfl
  | cons x xs ih =>
    intro l2 l3 h12 h23
    cases l2 with
    | nil => simp [cmpLex] at h12
    | cons y ys =>
      cases l3 with
      | nil => simp [cmpLex] at h23
      | cons z zs =>
        cases hxy : cmp x y with
        | gt => simp [cmpLex, hxy] at h12
        | lt =>
          cases hyz : cmp y z with
          | gt => simp [cmpLex, hyz] at h23
          | lt => simp [cmpLex, hlt hxy hyz]
          | eq =>
            have hy : y = z := (heq y z).mp hyz
            subst hy
            simp [cmpLex, hxy]
        | eq =>
          have hx : x = y := (heq x y).mp hxy
          subst hx
          cases hyz : cmp x z with
          | gt => simp [cmpLex, hyz] at h23
          | lt => simp [cmpLex, hyz]
          | eq =>
            simp [cmpLex, hxy] at h12
            simp [cmpLex, hyz] at h23
            simp [cmpLex, hyz, ih h12 h23]

theorem cmpElem_swap (x y : KeyElem) : (cmpElem y x).swap = cmpElem x y := by
  cases x with
  | inl s =>
    cases y with
    | inl t => exact cmpLex_swap cmpNat cmpNat_swap s t
    | inr n => rfl
  | inr m =>
    cases y with
    | inl t => rfl
    | inr n => exact cmpNat_swap m n

theorem cmpElem_eq_iff (x y : KeyElem) : cmpElem x y = Ordering.eq ↔ x = y := by
  cases x <;> cases y <;>
    simp [cmpElem, cmpLex_eq_iff cmpNat cmpNat_eq_iff, cmpNat_eq_iff]

theorem cmpElem_lt_trans {x y z : KeyElem} (h1 : cmpElem x y = Ordering.lt)
    (h2 : cmpElem y z = Ordering.lt) : cmpElem x z = Ordering.lt := by
  cases x with
  | inl s =>
    cases y with
    | inl t =>
      cases z with
      | inl u =>
        simp only [cmpElem] at h1 h2 ⊢
        exact cmpLex_lt_trans cmpNat cmpNat_eq_iff cmpNat_lt_trans h1 h2
      | inr n => rfl
    | inr m =>
      cases z with
      | inl u => simp [cmpElem] at h2
      | inr n => rfl
  | inr m =>
    cases y with
    | inl t => simp [cmpElem] at h1
    | inr m2 =>
      cases z with
      | inl u => simp [cmpElem] at h2
      | inr n =>
        simp only [cmpElem] at h1 h2 ⊢
        exact cmpNat_lt_trans h1 h2

theorem natCmp_swap (a b : String) : (natCmp b a).swap = natCmp a b :=
  cmpLex_swap cmpElem cmpElem_swap _ _

theorem natCmp_eq_iff (a b : String) :
    natCmp a b = Ordering.eq ↔ natural_sort_key a = natural_sort_key b :=
  cmpLex_eq_iff cmpElem cmpElem_eq_iff _ _

theorem natCmp_lt_trans {a b c : String} (h1 : natCmp a b = Ordering.lt)
    (h2 : natCmp b c = Ordering.lt) : natCmp a c = Ordering.lt :=
  cmpLex_lt_trans cmpElem cmpElem_eq_iff (fun hx hy => cmpElem_lt_trans hx hy) h1 h2

theorem natLE_total (a b : String) : natLE a b = true ∨ natLE b a = true := by
  unfold natLE
  cases h : natCmp a b with
  | lt => left; rfl
  | eq => left; rfl
  | gt =>
    right
    have hsw := natCmp_swap a b
    rw [h] at hsw
    cases hba : natCmp b a with
    | lt => rfl
    | eq => rfl
    | gt => rw [hba] at hsw; simp [Ordering.swap] at hsw

theorem natLE_trans {a b c : String} (h1 : natLE a b = true) (h2 : natLE b c = true) :
    natLE a c = true := by
  unfold natLE at h1 h2 ⊢
  cases hab : natCmp a b with
  | gt => rw [hab] at h1; cases h1
  | lt =>
    cases hbc : natCmp b c with
    | gt => rw [hbc] at h2; cases h2
    | lt => rw [natCmp_lt_trans hab hbc]
    | eq =>
      have hk : natural_sort_key b = natural_sort_key c := (natCmp_eq_iff b c).mp hbc
      unfold natCmp at hab ⊢
      rw [← hk, hab]
  | eq =>
    have hk : natural_sort_key a = natural_sort_key b := (natCmp_eq_iff a b).mp hab
    unfold natCmp at h2 ⊢
    rw [hk]
    exact h2

theorem cmpElem_refl (x : KeyElem) : cmpElem x x = Ordering.eq :=
  (cmpElem_eq_iff x x).mpr rfl

theorem cmpLex_append_lt (k t : List KeyElem) (ht : t ≠ []) :
    cmpLex cmpElem k (k ++ t) = Ordering.lt := by
  induction k with
  | nil =>
    cases t with
    | nil => exact absurd rfl ht
    | cons a as => rfl
  | cons x xs ih => simp [cmpLex, cmpElem_refl, ih]

/-- C9: the natural sort key yields a total order on names (total and
transitive, ties being names with equal keys): digit runs compare as integers
and non-digit runs compare case-insensitively as text, run by run (this is
`natural_sort_key` under the lexicographic `cmpLex cmpElem`); a name whose key
is exhausted orders strictly before any name whose key properly extends it;
and sorting `["fa10","fa2","fa1"]` by the key yields `["fa1","fa2","fa10"]`. -/
theorem natural_sort_key_total_order :
    (∀ a b : String, natLE a b = true ∨ natLE b a = true) ∧
    (∀ a b c : String, natLE a b = true → natLE b c = true → natLE a c = true) ∧
    (∀ a b : String, (∃ t, t ≠ [] ∧ natural_sort_key b = natural_sort_key a ++ t) →
      natCmp a b = Ordering.lt) ∧
    sortByKey ["fa10", "fa2", "fa1"] = ["fa1", "fa2", "fa10"] := by
  refine ⟨natLE_total, fun a b c h1 h2 => natLE_trans h1 h2, ?_, by decide⟩
  rintro a b ⟨t, ht, hk⟩
  unfold natCmp
  rw [hk]
  exact cmpLex_append_lt _ t ht

/-- Witness for C9 at concrete inputs. -/
theorem natural_sort_key_total_order_witness :
    natLE "fa1" "fa10" = true ∧ natCmp "fa" "fa1" = Ordering.lt :=
  ⟨natural_sort_key_total_order.2.1 "fa1" "fa2" "fa10" (by decide) (by decide),
   natural_sort_key_total_order.2.2.1 "fa" "fa1"
     ⟨[Sum.inr 1, Sum.inl []], by decide, by decide⟩⟩

/-! Lemmas about the grid geometry. -/

theorem ceilSqrt_sq_ge (n : Nat) : n ≤ ceilSqrt n * ceilSqrt n := by
  unfold ceilSqrt
  by_cases h1 : Nat.sqrt n * Nat.sqrt n = n
  · rw [if_pos h1]; omega
  · rw [if_neg h1]
    exact Nat.le_of_lt (Nat.lt_succ_sqrt n)

theorem ceilSqrt_min {n m : Nat} (h : n ≤ m * m) : ceilSqrt n ≤ m := by
  unfold ceilSqrt
  by_cases h1 : Nat.sqrt n * Nat.sqrt n = n
  · rw [if_pos h1]
    calc Nat.sqrt n ≤ Nat.sqrt (m * m) := Nat.sqrt_le_sqrt h
      _ = m := Nat.sqrt_eq m
  · rw [if_neg h1]
    by_contra hc
    have h2 : m ≤ Nat.sqrt n := by omega
    have h3 : m * m ≤ Nat.sqrt n * Nat.sqrt n := Nat.mul_le_mul h2 h2
    have h4 := Nat.sqrt_le n
    exact h1 (by omega)

theorem ceilSqrt_pos {n : Nat} (hn : 0 < n) : 0 < ceilSqrt n := by
  unfold ceilSqrt
  by_cases h1 : Nat.sqrt n * Nat.sqrt n = n
  · rw [if_pos h1]
    exact Nat.sqrt_pos.mpr hn
  · rw [if_neg h1]
    omega

theorem real_sqrt_le_nat_iff (n m : Nat) : Real.sqrt n ≤ (m : ℝ) ↔ n ≤ m * m := by
  constructor
  · intro h
    have h0 : (0:ℝ) ≤ (n:ℝ) := Nat.cast_nonneg n
    have h2 : Real.sqrt (n:ℝ) ^ 2 ≤ (m:ℝ) ^ 2 :=
      pow_le_pow_left₀ (Real.sqrt_nonneg _) h 2
    rw [Real.sq_sqrt h0] at h2
    rw [show ((m:ℝ))^2 = ((m*m : Nat) : ℝ) by push_cast; ring] at h2
    exact_mod_cast h2
  · intro h
    have h2 : ((n:ℝ)) ≤ ((m:ℝ) * (m:ℝ)) := by exact_mod_cast h
    have h3 := Real.sqrt_le_sqrt h2
    rwa [Real.sqrt_mul_self (Nat.cast_nonneg m)] at h3

theorem ceilDiv_ge {n c : Nat} (hc : 0 < c) : n ≤ c * ceilDiv n c := by
  unfold ceilDiv
  have hdm := Nat.div_add_mod (n + c - 1) c
  have hs : (n + c - 1) % c < c := Nat.mod_lt _ hc
  omega

theorem ceilDiv_min {n c r : Nat} (hc : 0 < c) (h : n ≤ c * r) : ceilDiv n c ≤ r := by
  unfold ceilDiv
  have h1 : n + c - 1 ≤ c * r + (c - 1) := by omega
  calc (n + c - 1) / c ≤ (c * r + (c - 1)) / c := Nat.div_le_div_right h1
    _ = ((c - 1) + c * r) / c := by rw [Nat.add_comm]
    _ = (c - 1) / c + r := Nat.add_mul_div_left _ _ hc
    _ = r := by rw [Nat.div_eq_of_lt (by omega)]; omega

/-! Lemmas about the packing loop. -/

theorem packLoop_length (w h cols : Nat) :
    ∀ (names : List String) (idx : Nat), (packLoop w h cols idx names).length = names.length := by
  intro names
  induction names with
  | nil => intro idx; rfl
  | cons nm rest ih => intro idx; simp [packLoop, ih (idx + 1)]

theorem packEntries_length (names : List String) (w h : Nat) :
    (packEntries names w h).length = names.length :=
  packLoop_length w h (ceilSqrt names.length) names 0

theorem packLoop_getElem? (w h cols : Nat) :
    ∀ (names : List String) (idx i : Nat),
      (packLoop w h cols idx names)[i]? = (names[i]?).map fun nm =>
        { name := nm, x := (((idx + i) % cols * w : Nat) : Int),
          y := (((idx + i) / cols * h : Nat) : Int), w := w, h := h } := by
  intro names
  induction names with
  | nil => intro idx i; simp [packLoop]
  | cons nm rest ih =>
    intro idx i
    cases i with
    | zero => simp [packLoop]
    | succ j =>
      have := ih (idx + 1) j
      rw [show idx + (j + 1) = idx + 1 + j by omega]
      simpa [packLoop] using this

theorem packEntries_mem {names : List String} {w h : Nat} {e : AtlasEntry}
    (he : e ∈ packEntries names w h) :
    ∃ i nm, i < names.length ∧ names[i]? = some nm ∧
      e = { name := nm, x := ((i % ceilSqrt names.length * w : Nat) : Int),
            y := ((i / ceilSqrt names.length * h : Nat) : Int), w := w, h := h } := by
  obtain ⟨i, hi⟩ := List.mem_iff_getElem?.mp he
  rw [packEntries, packLoop_getElem?] at hi
  cases hnm : names[i]? with
  | none => rw [hnm] at hi; cases hi
  | some nm =>
    rw [hnm] at hi
    refine ⟨i, nm, ?_, hnm, ?_⟩
    · exact (List.getElem?_eq_some_iff.mp hnm).1
    · simpa using hi.symm

/-- C6: the entry at 0-based collection index `i` is placed at
`col = i mod cols`, `row = i div cols`, hence `x = (i mod cols)*w` and
`y = (i div cols)*h`; the records appear in collection order (the record list
has one record per name, and the record at position `i` comes from the name at
position `i`, with no other tie-break). -/
theorem pack_placement (names : List String) (w h i : Nat) :
    (packEntries names w h).length = names.length ∧
    (packEntries names w h)[i]? = (names[i]?).map fun nm =>
      { name := nm, x := ((i % ceilSqrt names.length * w : Nat) : Int),
        y := ((i / ceilSqrt names.length * h : Nat) : Int), w := w, h := h } := by
  refine ⟨packEntries_length names w h, ?_⟩
  have := packLoop_getElem? w h (ceilSqrt names.length) names 0 i
  simpa [packEntries] using this

/-- C5: for every icon count `n ≥ 1`, `cols = ceil(sqrt(n))` is the smallest
integer that is at least `sqrt(n)` (in the real numbers), `rows = ceil(n/cols)`
is the smallest integer with `cols*rows ≥ n`, and the pipeline's canvas is
`cols*w` by `rows*h` pixels. -/
theorem pack_grid_geometry (n : Nat) (hn : 1 ≤ n) :
    (Real.sqrt n ≤ (ceilSqrt n : ℝ) ∧ ∀ m : ℕ, Real.sqrt n ≤ (m : ℝ) → ceilSqrt n ≤ m) ∧
    (n ≤ ceilSqrt n * ceilDiv n (ceilSqrt n) ∧
      ∀ r : ℕ, n ≤ ceilSqrt n * r → ceilDiv n (ceilSqrt n) ≤ r) ∧
    (∀ (files : List String) (w h : Nat) (png : String) (fn : Option (String → String))
      (res : SheetResult), create_spritesheet_from_dir files w h png fn = some res →
      res.sheetW = ceilSqrt res.entries.length * w ∧
      res.sheetH = ceilDiv res.entries.length (ceilSqrt res.entries.length) * h) := by
  have hpos : 0 < ceilSqrt n := ceilSqrt_pos hn
  refine ⟨⟨?_, ?_⟩, ⟨ceilDiv_ge hpos, fun r hr => ceilDiv_min hpos hr⟩, ?_⟩
  · exact (real_sqrt_le_nat_iff n (ceilSqrt n)).mpr (ceilSqrt_sq_ge n)
  · intro m hm
    exact ceilSqrt_min ((real_sqrt_le_nat_iff n m).mp hm)
  · intro files w h png fn res hres
    simp only [create_spritesheet_from_dir] at hres
    split at hres
    · cases hres
    · rw [Option.some_inj] at hres
      subst hres
      simp [packEntries_length]

/-- Witness for C5 at `n = 3`. -/
theorem pack_grid_geometry_witness :
    (Real.sqrt 3 ≤ (ceilSqrt 3 : ℝ) ∧ ∀ m : ℕ, Real.sqrt 3 ≤ (m : ℝ) → ceilSqrt 3 ≤ m) ∧
    (3 ≤ ceilSqrt 3 * ceilDiv 3 (ceilSqrt 3) ∧
      ∀ r : ℕ, 3 ≤ ceilSqrt 3 * r → ceilDiv 3 (ceilSqrt 3) ≤ r) ∧
    (∀ (files : List String) (w h : Nat) (png : String) (fn : Option (String → String))
      (res : SheetResult), create_spritesheet_from_dir files w h png fn = some res →
      res.sheetW = ceilSqrt res.entries.length * w ∧
      res.sheetH = ceilDiv res.entries.length (ceilSqrt res.entries.length) * h) :=
  pack_grid_geometry 3 (by decide)

/-! Lemmas about stripping. -/

theorem head?_dropWhile_false {α : Type} {p : α → Bool} (l : List α) {c : α}
    (h : (l.dropWhile p).head? = some c) : p c = false := by
  have h2 := List.head?_dropWhile_not p l
  rw [h] at h2
  exact h2

theorem getLast?_dropWhile_of_ne_nil {α : Type} {p : α → Bool} :
    ∀ {l : List α}, l.dropWhile p ≠ [] → (l.dropWhile p).getLast? = l.getLast? := by
  intro l
  induction l with
  | nil => intro h; simp at h
  | cons c t ih =>
    intro h
    by_cases hp : p c
    · rw [List.dropWhile_cons_of_pos hp] at h ⊢
      cases t with
      | nil => simp [List.dropWhile] at h
      | cons x xs =>
        rw [List.getLast?_cons_cons]
        exact ih h
    · rw [List.dropWhile_cons_of_neg hp]

theorem pyStripL_head {cs : List Char} {c : Char} (h : (pyStripL cs).head? = some c) :
    isSpaceChar c = false := by
  unfold pyStripL at h
  rw [List.head?_reverse] at h
  have hne : (((cs.dropWhile isSpaceChar).reverse).dropWhile isSpaceChar) ≠ [] := by
    intro hnil
    rw [hnil] at h
    cases h
  rw [getLast?_dropWhile_of_ne_nil hne, List.getLast?_reverse] at h
  exact head?_dropWhile_false _ h

theorem pyStripL_last {cs : List Char} {c : Char} (h : (pyStripL cs).getLast? = some c) :
    isSpaceChar c = false := by
  unfold pyStripL at h
  rw [List.getLast?_reverse] at h
  exact head?_dropWhile_false _ h

theorem pyStripL_eq_self {cs : List Char}
    (h1 : ∀ c, cs.head? = some c → isSpaceChar c = false)
    (h2 : ∀ c, cs.getLast? = some c → isSpaceChar c = false) :
    pyStripL cs = cs := by
  unfold pyStripL
  have ha : cs.dropWhile isSpaceChar = cs := by
    cases cs with
    | nil => rfl
    | cons c t =>
      rw [List.dropWhile_cons_of_neg]
      simp [h1 c rfl]
  rw [ha]
  have hb : cs.reverse.dropWhile isSpaceChar = cs.reverse := by
    cases hrev : cs.reverse with
    | nil => rfl
    | cons c t =>
      rw [List.dropWhile_cons_of_neg]
      have hc : cs.getLast? = some c := by rw [← List.head?_reverse, hrev]; rfl
      simp [h2 c hc]
  rw [hb, List.reverse_reverse]

theorem pyStrip_idem (s : String) : pyStrip (pyStrip s) = pyStrip s := by
  unfold pyStrip
  congr 1
  rw [show (String.mk (pyStripL s.toList)).toList = pyStripL s.toList from rfl]
  exact pyStripL_eq_self (fun c h => pyStripL_head h) (fun c h => pyStripL_last h)

theorem mem_legacyLines_stripped {raw : List String} {l : String}
    (h : l ∈ legacyLines raw) : pyStrip l = l := by
  unfold legacyLines at h
  rw [List.mem_filterMap] at h
  obtain ⟨a, _, ha⟩ := h
  by_cases hs : pyStrip a = ""
  · simp [hs] at ha
  · simp only [hs, if_neg, ite_false] at ha
    rw [← Option.some.inj ha]
    exact pyStrip_idem a

/-! Lemmas about the PlainLabel loop. -/

theorem rowStrip_length (ts cols rowIdx r : Nat) (name : String) :
    (rowStrip ts cols rowIdx r name).length = cols := by
  simp [rowStrip]

theorem rowStrip_getElem? (ts cols rowIdx r c : Nat) (name : String) (hc : c < cols) :
    (rowStrip ts cols rowIdx r name)[c]? =
      some { name := name ++ " [row " ++ toString r ++ ", col " ++ toString c ++ "]",
             x := ((c * ts : Nat) : Int), y := ((rowIdx * ts : Nat) : Int),
             w := ts, h := ts } := by
  simp [rowStrip, List.getElem?_range hc]

theorem rowStrip_mem {ts cols rowIdx r : Nat} {name : String} {e : AtlasEntry}
    (he : e ∈ rowStrip ts cols rowIdx r name) :
    ∃ c, c < cols ∧ e.x = ((c * ts : Nat) : Int) ∧ e.y = ((rowIdx * ts : Nat) : Int) ∧
      e.w = ts ∧ e.h = ts := by
  simp only [rowStrip, List.mem_map, List.mem_range] at he
  obtain ⟨c, hc, rfl⟩ := he
  exact ⟨c, hc, rfl, rfl, rfl, rfl⟩

theorem plainBlock_length (ts cols rpg cur : Nat) (name : String) :
    (plainBlock ts cols rpg cur name).length = rpg * cols := by
  induction rpg with
  | zero => simp [plainBlock]
  | succ k ih =>
    have hsplit : plainBlock ts cols (k + 1) cur name =
        plainBlock ts cols k cur name ++ rowStrip ts cols (cur + k) k name := by
      unfold plainBlock
      rw [List.range_succ, List.flatMap_append, List.flatMap_singleton]
    rw [hsplit, List.length_append, ih, rowStrip_length]
    ring

theorem plainBlock_getElem? (ts cols cur : Nat) (name : String) :
    ∀ (rpg r c : Nat), r < rpg → c < cols →
      (plainBlock ts cols rpg cur name)[r * cols + c]? =
        some { name := name ++ " [row " ++ toString r ++ ", col " ++ toString c ++ "]",
               x := ((c * ts : Nat) : Int), y := (((cur + r) * ts : Nat) : Int),
               w := ts, h := ts } := by
  intro rpg
  induction rpg with
  | zero => intro r c hr hc; omega
  | succ k ih =>
    intro r c hr hc
    have hsplit : plainBlock ts cols (k + 1) cur name =
        plainBlock ts cols k cur name ++ rowStrip ts cols (cur + k) k name := by
      unfold plainBlock
      rw [List.range_succ, List.flatMap_append, List.flatMap_singleton]
    rw [hsplit]
    by_cases hrk : r < k
    · rw [List.getElem?_append_left]
      · exact ih r c hrk hc
      · rw [plainBlock_length]
        calc r * cols + c < r * cols + cols := by omega
          _ = (r + 1) * cols := by ring
          _ ≤ k * cols := Nat.mul_le_mul_right cols (by omega)
    · have hr' : r = k := by omega
      subst hr'
      rw [List.getElem?_append_right (by rw [plainBlock_length]; omega)]
      rw [plainBlock_length, Nat.add_sub_cancel_left]
      exact rowStrip_getElem? ts cols (cur + r) r c name hc

theorem plainLabelLoop_length (ts cols rpg : Nat) :
    ∀ (lines : List String) (cur : Nat),
      (plainLabelLoop ts cols rpg cur lines).length = lines.length * (rpg * cols) := by
  intro lines
  induction lines with
  | nil => intro cur; simp [plainLabelLoop]
  | cons l rest ih =>
    intro cur
    simp only [plainLabelLoop, List.length_append, plainBlock_length, ih, List.length_cons]
    ring

theorem plainLabelLoop_getElem? (ts cols rpg : Nat) :
    ∀ (lines : List String) (cur k r c : Nat) (line : String),
      lines[k]? = some line → r < rpg → c < cols →
      (plainLabelLoop ts cols rpg cur lines)[(k * rpg + r) * cols + c]? =
        some { name := pyStrip line ++ " [row " ++ toString r ++ ", col " ++ toString c ++ "]",
               x := ((c * ts : Nat) : Int),
               y := (((cur + (k * rpg + r)) * ts : Nat) : Int), w := ts, h := ts } := by
  intro lines
  induction lines with
  | nil => intro cur k r c line hk hr hc; simp at hk
  | cons l rest ih =>
    intro cur k r c line hk hr hc
    simp only [plainLabelLoop]
    cases k with
    | zero =>
      have hl : l = line := by simpa using hk
      subst hl
      rw [show (0 * rpg + r) * cols + c = r * cols + c by ring]
      rw [List.getElem?_append_left]
      · rw [show cur + (0 * rpg + r) = cur + r by ring]
        exact plainBlock_getElem? ts cols cur (pyStrip l) rpg r c hr hc
      · rw [plainBlock_length]
        calc r * cols + c < r * cols + cols := by omega
          _ = (r + 1) * cols := by ring
          _ ≤ rpg * cols := Nat.mul_le_mul_right cols (by omega)
    | succ k' =>
      have hk' : rest[k']? = some line := by simpa using hk
      rw [show ((k' + 1) * rpg + r) * cols + c = rpg * cols + ((k' * rpg + r) * cols + c) by ring]
      rw [List.getElem?_append_right (by rw [plainBlock_length]; omega)]
      rw [plainBlock_length, Nat.add_sub_cancel_left]
      rw [show cur + ((k' + 1) * rpg + r) = cur + rpg + (k' * rpg + r) by ring]
      exact ih (cur + rpg) k' r c line hk' hr hc

theorem plainLabelLoop_mem (ts cols rpg : Nat) :
    ∀ (lines : List String) (cur : Nat) (e : AtlasEntry),
      e ∈ plainLabelLoop ts cols rpg cur lines →
      ∃ k r c, k < lines.length ∧ r < rpg ∧ c < cols ∧
        e.x = ((c * ts : Nat) : Int) ∧ e.y = (((cur + (k * rpg + r)) * ts : Nat) : Int) ∧
        e.w = ts ∧ e.h = ts := by
  intro lines
  induction lines with
  | nil => intro cur e he; simp [plainLabelLoop] at he
  | cons l rest ih =>
    intro cur e he
    simp only [plainLabelLoop, List.mem_append] at he
    cases he with
    | inl hb =>
      simp only [plainBlock, List.mem_flatMap, List.mem_range] at hb
      obtain ⟨r, hr, hb⟩ := hb
      obtain ⟨c, hc, hx, hy, hw, hh⟩ := rowStrip_mem hb
      refine ⟨0, r, c, by simp, hr, hc, hx, ?_, hw, hh⟩
      rw [show cur + (0 * rpg + r) = cur + r by ring]
      exact hy
    | inr hrest =>
      obtain ⟨k, r, c, hk, hr, hc, hx, hy, hw, hh⟩ := ih (cur + rpg) e hrest
      refine ⟨k + 1, r, c, by simpa using Nat.succ_lt_succ hk, hr, hc, hx, ?_, hw, hh⟩
      rw [show cur + ((k + 1) * rpg + r) = cur + rpg + (k * rpg + r) by ring]
      exact hy

/-- C3: in PlainLabel format with `labelCount` non-empty lines and a grid of
`rows` rows and `cols` columns, `rowsPerGroup = floor(rows / max(1, labelCount))`;
label `k` (0-based, in file order) owns rows `[k*rowsPerGroup, (k+1)*rowsPerGroup)`,
producing `rowsPerGroup*cols` records per label named
`"{label} [row {r}, col {c}]"` at `x = c*tileSize`,
`y = (k*rowsPerGroup + r)*tileSize`; rows at or beyond
`labelCount*rowsPerGroup` receive no records (every record's row index is
`k*rowsPerGroup + r` with `k < labelCount` and `r < rowsPerGroup`). -/
theorem plain_label_assignment (ts W H : Nat) (raw : List String) (L : List String)
    (cols rpg : Nat) (hL : L = legacyLines raw) (hcols : cols = W / ts)
    (hrpg : rpg = H / ts / max 1 L.length)
    (hcls : classifyFormat L = LabelFormat.PlainLabel) :
    (legacyAtlasEntries ts W H raw).length = L.length * (rpg * cols) ∧
    (∀ k r c line, L[k]? = some line → r < rpg → c < cols →
      (legacyAtlasEntries ts W H raw)[(k * rpg + r) * cols + c]? =
        some { name := line ++ " [row " ++ toString r ++ ", col " ++ toString c ++ "]",
               x := ((c * ts : Nat) : Int), y := (((k * rpg + r) * ts : Nat) : Int),
               w := ts, h := ts }) ∧
    (∀ e ∈ legacyAtlasEntries ts W H raw, ∃ k r c, k < L.length ∧ r < rpg ∧ c < cols ∧
      e.x = ((c * ts : Nat) : Int) ∧ e.y = (((k * rpg + r) * ts : Nat) : Int)) := by
  subst hL hcols hrpg
  have hent : legacyAtlasEntries ts W H raw =
      plainLabelLoop ts (W / ts) (H / ts / max 1 (legacyLines raw).length) 0
        (legacyLines raw) := by
    simp only [legacyAtlasEntries, hcls]
  refine ⟨?_, ?_, ?_⟩
  · rw [hent, plainLabelLoop_length]
  · intro k r c line hk hr hc
    rw [hent]
    have hstr : pyStrip line = line := mem_legacyLines_stripped (List.getElem?_mem hk)
    have hmain := plainLabelLoop_getElem? ts (W / ts)
      (H / ts / max 1 (legacyLines raw).length) (legacyLines raw) 0 k r c line hk hr hc
    rw [hstr] at hmain
    simpa using hmain
  · intro e he
    rw [hent] at he
    obtain ⟨k, r, c, hk, hr, hc, hx, hy, _, _⟩ :=
      plainLabelLoop_mem ts (W / ts) (H / ts / max 1 (legacyLines raw).length)
        (legacyLines raw) 0 e he
    exact ⟨k, r, c, hk, hr, hc, hx, by simpa using hy⟩

/-- Witness for C3: two labels on a 2x10 grid of 32-pixel tiles. -/
theorem plain_label_assignment_witness :
    (legacyAtlasEntries 32 64 320 ["foo", "bar"]).length = 2 * (5 * 2) ∧
    (legacyAtlasEntries 32 64 320 ["foo", "bar"])[(1 * 5 + 0) * 2 + 1]? =
      some { name := "bar" ++ " [row " ++ toString 0 ++ ", col " ++ toString 1 ++ "]",
             x := ((1 * 32 : Nat) : Int), y := (((1 * 5 + 0) * 32 : Nat) : Int),
             w := 32, h := 32 } := by
  have h := plain_label_assignment 32 64 320 ["foo", "bar"] (legacyLines ["foo", "bar"])
    2 5 rfl (by decide) (by decide) (by decide)
  refine ⟨h.1, ?_⟩
  exact h.2.1 1 0 1 "bar" (by decide) (by decide) (by decide)

/-! Lemmas about the GridRef and RowLabel record emission. -/

theorem gridRefLine_eq_of_parse {ts : Nat} {l : String} {i c : Nat} {nm : String}
    (h : parseGridRef l = some (i, c, nm)) :
    gridRefLine ts l =
      [{ name := pyStrip nm, x := ((c * ts : Nat) : Int),
         y := ((i : Int) - 1) * (ts : Int), w := ts, h := ts }] := by
  unfold gridRefLine
  rw [h]

theorem gridRefLine_eq_nil {ts : Nat} {l : String} (h : parseGridRef l = none) :
    gridRefLine ts l = [] := by
  unfold gridRefLine
  rw [h]

theorem gridRefLine_mem {ts : Nat} {l : String} {e : AtlasEntry}
    (he : e ∈ gridRefLine ts l) :
    ∃ i c nm, parseGridRef l = some (i, c, nm) ∧
      e = { name := pyStrip nm, x := ((c * ts : Nat) : Int),
            y := ((i : Int) - 1) * (ts : Int), w := ts, h := ts } := by
  cases hp : parseGridRef l with
  | none => rw [gridRefLine_eq_nil hp] at he; cases he
  | some v =>
    obtain ⟨i, c, nm⟩ := v
    rw [gridRefLine_eq_of_parse hp] at he
    refine ⟨i, c, nm, rfl, ?_⟩
    simpa using he

theorem rowLabelLine_eq_of_parse {ts cols : Nat} {l : String} {i : Nat} {nm : String}
    (h : parseRowNum l = some (i, nm)) :
    rowLabelLine ts cols l = (List.range cols).map fun c =>
      { name := pyStrip nm ++ " [frame " ++ toString c ++ "]",
        x := ((c * ts : Nat) : Int), y := ((i : Int) - 1) * (ts : Int),
        w := ts, h := ts } := by
  unfold rowLabelLine
  rw [h]

theorem rowLabelLine_eq_nil {ts cols : Nat} {l : String} (h : parseRowNum l = none) :
    rowLabelLine ts cols l = [] := by
  unfold rowLabelLine
  rw [h]

theorem rowLabelLine_mem {ts cols : Nat} {l : String} {e : AtlasEntry}
    (he : e ∈ rowLabelLine ts cols l) :
    ∃ i nm c, parseRowNum l = some (i, nm) ∧ c < cols ∧
      e = { name := pyStrip nm ++ " [frame " ++ toString c ++ "]",
            x := ((c * ts : Nat) : Int), y := ((i : Int) - 1) * (ts : Int),
            w := ts, h := ts } := by
  cases hp : parseRowNum l with
  | none => rw [rowLabelLine_eq_nil hp] at he; cases he
  | some v =>
    obtain ⟨i, nm⟩ := v
    rw [rowLabelLine_eq_of_parse hp] at he
    simp only [List.mem_map, List.mem_range] at he
    obtain ⟨c, hc, rfl⟩ := he
    exact ⟨i, nm, c, rfl, hc, rfl⟩

theorem legacyAtlasEntries_gridRef {ts W H : Nat} {raw : List String}
    (h : classifyFormat (legacyLines raw) = LabelFormat.GridRef) :
    legacyAtlasEntries ts W H raw = (legacyLines raw).flatMap (gridRefLine ts) := by
  simp only [legacyAtlasEntries, h]

theorem legacyAtlasEntries_rowLabel {ts W H : Nat} {raw : List String}
    (h : classifyFormat (legacyLines raw) = LabelFormat.RowLabel) :
    legacyAtlasEntries ts W H raw =
      (legacyLines raw).flatMap (rowLabelLine ts (W / ts)) := by
  simp only [legacyAtlasEntries, h]

/-! Bounds arithmetic. -/

theorem x_bound {ts W c : Nat} (hc : c < W / ts) :
    ((c * ts : Nat) : Int) + (ts : Int) ≤ (W : Int) := by
  have h1 : c * ts + ts ≤ (W / ts) * ts := by
    calc c * ts + ts = (c + 1) * ts := by ring
      _ ≤ (W / ts) * ts := Nat.mul_le_mul_right ts hc
  have h2 : (W / ts) * ts ≤ W := Nat.div_mul_le_self W ts
  exact_mod_cast Nat.le_trans h1 h2

theorem y_bound_row {ts H i : Nat} (hi : i ≤ H / ts) :
    ((i : Int) - 1) * (ts : Int) + (ts : Int) ≤ (H : Int) := by
  have h0 : ((i : Int) - 1) * (ts : Int) + (ts : Int) = ((i : Nat) : Int) * (ts : Int) := by
    ring
  rw [h0]
  have h1 : i * ts ≤ (H / ts) * ts := Nat.mul_le_mul_right ts hi
  have h2 : (H / ts) * ts ≤ H := Nat.div_mul_le_self H ts
  exact_mod_cast Nat.le_trans h1 h2

theorem y_bound_abs {ts H row : Nat} (hrow : row < H / ts) :
    ((row * ts : Nat) : Int) + (ts : Int) ≤ (H : Int) := by
  have h1 : row * ts + ts ≤ (H / ts) * ts := by
    calc row * ts + ts = (row + 1) * ts := by ring
      _ ≤ (H / ts) * ts := Nat.mul_le_mul_right ts hrow
  have h2 : (H / ts) * ts ≤ H := Nat.div_mul_le_self H ts
  exact_mod_cast Nat.le_trans h1 h2

theorem packEntries_bounds {names : List String} {w h : Nat} {e : AtlasEntry}
    (he : e ∈ packEntries names w h) :
    e.x + (e.w : Int) ≤ ((ceilSqrt names.length * w : Nat) : Int) ∧
    e.y + (e.h : Int) ≤ ((ceilDiv names.length (ceilSqrt names.length) * h : Nat) : Int) := by
  obtain ⟨i, nm, hi, hnm, rfl⟩ := packEntries_mem he
  have hpos : 0 < ceilSqrt names.length := ceilSqrt_pos (by omega)
  dsimp only
  constructor
  · have hmod : i % ceilSqrt names.length < ceilSqrt names.length := Nat.mod_lt _ hpos
    have hx : i % ceilSqrt names.length * w + w ≤ ceilSqrt names.length * w := by
      calc i % ceilSqrt names.length * w + w
          = (i % ceilSqrt names.length + 1) * w := by ring
        _ ≤ ceilSqrt names.length * w := Nat.mul_le_mul_right w hmod
    exact_mod_cast hx
  · have hdiv : i / ceilSqrt names.length < ceilDiv names.length (ceilSqrt names.length) := by
      rw [Nat.div_lt_iff_lt_mul hpos]
      calc i < names.length := hi
        _ ≤ ceilSqrt names.length * ceilDiv names.length (ceilSqrt names.length) :=
          ceilDiv_ge hpos
        _ = ceilDiv names.length (ceilSqrt names.length) * ceilSqrt names.length :=
          Nat.mul_comm _ _
    have hy : i / ceilSqrt names.length * h + h ≤
        ceilDiv names.length (ceilSqrt names.length) * h := by
      calc i / ceilSqrt names.length * h + h
          = (i / ceilSqrt names.length + 1) * h := by ring
        _ ≤ ceilDiv names.length (ceilSqrt names.length) * h :=
          Nat.mul_le_mul_right h hdiv
    exact_mod_cast hy

/-- C2 amended: every packer record satisfies `x+w ≤ canvasWidth` and
`y+h ≤ canvasHeight`; every legacy PlainLabel record satisfies them against
the sheet size; legacy GridRef and RowLabel records satisfy them whenever the
row and column references parsed from the line lie within the sheet's grid —
the code performs no range check, so an out-of-range reference violates the
bounds (see the counterexample). -/
theorem atlas_entry_bounds :
    (∀ (names : List String) (w h : Nat) (e : AtlasEntry), e ∈ packEntries names w h →
      e.x + (e.w : Int) ≤ ((ceilSqrt names.length * w : Nat) : Int) ∧
      e.y + (e.h : Int) ≤ ((ceilDiv names.length (ceilSqrt names.length) * h : Nat) : Int)) ∧
    (∀ (ts W H : Nat) (raw : List String) (e : AtlasEntry),
      classifyFormat (legacyLines raw) = LabelFormat.PlainLabel →
      e ∈ legacyAtlasEntries ts W H raw →
      e.x + (e.w : Int) ≤ (W : Int) ∧ e.y + (e.h : Int) ≤ (H : Int)) ∧
    (∀ (ts W H : Nat) (raw : List String) (e : AtlasEntry),
      classifyFormat (legacyLines raw) = LabelFormat.GridRef →
      (∀ l ∈ legacyLines raw, ∀ i c nm, parseGridRef l = some (i, c, nm) →
        i ≤ H / ts ∧ c < W / ts) →
      e ∈ legacyAtlasEntries ts W H raw →
      e.x + (e.w : Int) ≤ (W : Int) ∧ e.y + (e.h : Int) ≤ (H : Int)) ∧
    (∀ (ts W H : Nat) (raw : List String) (e : AtlasEntry),
      classifyFormat (legacyLines raw) = LabelFormat.RowLabel →
      (∀ l ∈ legacyLines raw, ∀ i nm, parseRowNum l = some (i, nm) → i ≤ H / ts) →
      e ∈ legacyAtlasEntries ts W H raw →
      e.x + (e.w : Int) ≤ (W : Int) ∧ e.y + (e.h : Int) ≤ (H : Int)) := by
  refine ⟨fun names w h e he => packEntries_bounds he, ?_, ?_, ?_⟩
  · intro ts W H raw e hcls he
    have hent : legacyAtlasEntries ts W H raw =
        plainLabelLoop ts (W / ts) (H / ts / max 1 (legacyLines raw).length) 0
          (legacyLines raw) := by
      simp only [legacyAtlasEntries, hcls]
    rw [hent] at he
    obtain ⟨k, r, c, hk, hr, hc, hx, hy, hw, hh⟩ :=
      plainLabelLoop_mem ts (W / ts) (H / ts / max 1 (legacyLines raw).length)
        (legacyLines raw) 0 e he
    set n := (legacyLines raw).length with hn
    set rpg := H / ts / max 1 n with hrpg
    constructor
    · rw [hx, hw]
      exact x_bound hc
    · rw [hy, hh]
      have hrow : 0 + (k * rpg + r) < H / ts := by
        have h1 : k * rpg + r < (k + 1) * rpg := by
          have hexp : (k + 1) * rpg = k * rpg + rpg := by ring
          omega
        have h2 : (k + 1) * rpg ≤ n * rpg := Nat.mul_le_mul_right rpg (by omega)
        have h3 : n * rpg ≤ max 1 n * rpg := Nat.mul_le_mul_right rpg (by omega)
        have h4 : max 1 n * rpg ≤ H / ts := by
          rw [hrpg, Nat.mul_comm]
          exact Nat.div_mul_le_self _ _
        omega
      exact y_bound_abs hrow
  · intro ts W H raw e hcls hrange he
    rw [legacyAtlasEntries_gridRef hcls] at he
    rw [List.mem_flatMap] at he
    obtain ⟨l, hl, he⟩ := he
    obtain ⟨i, c, nm, hp, rfl⟩ := gridRefLine_mem he
    obtain ⟨hi, hc⟩ := hrange l hl i c nm hp
    exact ⟨x_bound hc, y_bound_row hi⟩
  · intro ts W H raw e hcls hrange he
    rw [legacyAtlasEntries_rowLabel hcls] at he
    rw [List.mem_flatMap] at he
    obtain ⟨l, hl, he⟩ := he
    obtain ⟨i, nm, c, hp, hc, rfl⟩ := rowLabelLine_mem he
    have hi := hrange l hl i nm hp
    exact ⟨x_bound hc, y_bound_row hi⟩

/-- C2 counterexample: on a 32x32 sheet (one 32-pixel tile), the GridRef line
`"2.a x"` emits a record at `y = 32` with `h = 32`, so `y + h = 64 > 32`: the
legacy translator violates the claimed invariant because it never range-checks
the parsed row. -/
theorem atlas_entry_bounds_counterexample :
    ∃ e ∈ legacyAtlasEntries 32 32 32 ["2.a x"], (32 : Int) < e.y + (e.h : Int) := by
  decide

/-- Witness for C2 at concrete inputs: one packed icon and one PlainLabel
legacy sheet. -/
theorem atlas_entry_bounds_witness :
    ((0 : Int) + ((32 : Nat) : Int) ≤ ((ceilSqrt 1 * 32 : Nat) : Int) ∧
      (0 : Int) + ((32 : Nat) : Int) ≤ ((ceilDiv 1 (ceilSqrt 1) * 32 : Nat) : Int)) ∧
    ((0 : Int) + ((32 : Nat) : Int) ≤ ((64 : Nat) : Int) ∧
      (0 : Int) + ((32 : Nat) : Int) ≤ ((320 : Nat) : Int)) :=
  ⟨atlas_entry_bounds.1 ["a"] 32 32 ⟨"a", 0, 0, 32, 32⟩ (by decide),
   atlas_entry_bounds.2.1 32 64 320 ["foo", "bar"]
     ⟨"foo [row 0, col 0]", 0, 0, 32, 32⟩ (by decide) (by decide)⟩

/-! Lemmas about the line parsers. -/

theorem mem_takeWhile_prop {α : Type} {p : α → Bool} :
    ∀ {l : List α} {c}, c ∈ l.takeWhile p → p c = true := by
  intro l
  induction l with
  | nil => intro c hc; cases hc
  | cons x xs ih =>
    intro c hc
    by_cases hx : p x
    · rw [List.takeWhile_cons_of_pos hx] at hc
      rcases List.mem_cons.mp hc with rfl | hc2
      · exact hx
      · exact ih hc2
    · rw [List.takeWhile_cons_of_neg hx] at hc
      cases hc

theorem takeWhile_all_head_neg {p : Char → Bool} {a b : List Char}
    (ha : ∀ c ∈ a, p c = true) (hb : ∀ c rest, b = c :: rest → p c = false) :
    (a ++ b).takeWhile p = a ∧ (a ++ b).dropWhile p = b := by
  constructor
  · rw [List.takeWhile_append_of_pos (by intro x hx; exact ha x hx)]
    cases b with
    | nil => simp
    | cons c rest =>
      rw [List.takeWhile_cons_of_neg (by simp [hb c rest rfl])]
      simp
  · rw [List.dropWhile_append_of_pos (by intro x hx; exact ha x hx)]
    cases b with
    | nil => simp
    | cons c rest =>
      rw [List.dropWhile_cons_of_neg (by simp [hb c rest rfl])]

theorem getLast?_suffix_all {p : Char → Bool} {a b full : List Char}
    (hfull : full = a ++ b) (hb : b ≠ []) (hall : ∀ x ∈ b, p x = true) :
    ∃ x, full.getLast? = some x ∧ p x = true := by
  cases hlast : b.getLast? with
  | none => exact absurd (List.getLast?_eq_none_iff.mp hlast) hb
  | some x =>
    refine ⟨x, ?_, hall x (List.mem_of_getLast?_eq_some hlast)⟩
    rw [hfull, List.getLast?_append, hlast]
    rfl

theorem matchSpacePlusRest_some {cs nm : List Char} (h : matchSpacePlusRest cs = some nm) :
    (cs = cs.takeWhile isSpaceChar ++ nm ∧ cs.takeWhile isSpaceChar ≠ [] ∧
      (∀ x ∈ cs.takeWhile isSpaceChar, isSpaceChar x = true) ∧ nm ≠ [] ∧
      (∀ x r2, nm = x :: r2 → isSpaceChar x = false)) ∨
    (cs ≠ [] ∧ (∀ x ∈ cs, isSpaceChar x = true) ∧ 2 ≤ cs.length ∧
      nm = [cs.getLastD ' ']) := by
  unfold matchSpacePlusRest at h
  by_cases hws : (cs.takeWhile isSpaceChar).isEmpty
  · rw [if_pos hws] at h; cases h
  · rw [if_neg hws] at h
    by_cases hrest : (cs.dropWhile isSpaceChar).isEmpty
    · rw [if_neg (by simp [List.isEmpty_iff.mp hrest])] at h
      have hcseq : cs.takeWhile isSpaceChar = cs := by
        have hcat := List.takeWhile_append_dropWhile isSpaceChar cs
        rw [List.isEmpty_iff.mp hrest] at hcat
        simpa using hcat
      have hall : ∀ x ∈ cs, isSpaceChar x = true := by
        intro x hx
        rw [← hcseq] at hx
        exact mem_takeWhile_prop hx
      right
      rw [hcseq] at h
      rcases cs with _ | ⟨c1, _ | ⟨c2, t2⟩⟩
      · cases h
      · cases h
      · refine ⟨by simp, hall, by simp, ?_⟩
        exact (Option.some.inj h).symm
    · rw [if_pos (by simpa using hrest)] at h
      have hnm : cs.dropWhile isSpaceChar = nm := Option.some.inj h
      left
      refine ⟨by rw [← hnm]; exact (List.takeWhile_append_dropWhile isSpaceChar cs).symm,
        by simpa using hws, fun x hx => mem_takeWhile_prop hx,
        by rw [← hnm]; simpa using hrest, ?_⟩
      intro x r2 hx
      apply head?_dropWhile_false cs
      rw [hnm, hx]
      rfl

theorem matchSpacePlusRest_eq {ws nmL : List Char} (hws : ws ≠ [])
    (hall : ∀ x ∈ ws, isSpaceChar x = true) (hnm : nmL ≠ [])
    (hhead : ∀ x r2, nmL = x :: r2 → isSpaceChar x = false) :
    matchSpacePlusRest (ws ++ nmL) = some nmL := by
  obtain ⟨htw, hdw⟩ := takeWhile_all_head_neg hall hhead
  unfold matchSpacePlusRest
  rw [htw, hdw]
  rw [if_neg (by simpa using hws)]
  rw [if_pos (by simpa using hnm)]

theorem strip_fix_last {l : String} (hstrip : pyStrip l = l) {x : Char}
    (h : l.toList.getLast? = some x) : isSpaceChar x = false := by
  have hfix : pyStripL l.toList = l.toList := congrArg String.toList hstrip
  rw [← hfix] at h
  exact pyStripL_last h

theorem parseRowNum_iff {l : String} (hstrip : pyStrip l = l) (i : Nat) (nm : String) :
    parseRowNum l = some (i, nm) ↔
    ∃ ds ws nmL, l.toList = ds ++ '.' :: (ws ++ nmL) ∧ ds ≠ [] ∧
      (∀ d ∈ ds, d.isDigit = true) ∧ ws ≠ [] ∧ (∀ x ∈ ws, isSpaceChar x = true) ∧
      nmL ≠ [] ∧ (∀ x r2, nmL = x :: r2 → isSpaceChar x = false) ∧
      i = digitsToNat ds ∧ nm = String.mk nmL := by
  constructor
  · intro h
    simp only [parseRowNum] at h
    split at h
    · cases h
    next hds =>
      split at h
      next rest0 heq =>
        split at h
        next nm0 hm =>
          rcases matchSpacePlusRest_some hm with
            ⟨hcat, hwsne, hwsall, hnm0ne, hnm0head⟩ | ⟨hne, hallsp, hlen, hnmval⟩
          · obtain ⟨hi, hnm⟩ : digitsToNat (l.toList.takeWhile Char.isDigit) = i ∧
                String.mk nm0 = nm := by simpa using h
            refine ⟨l.toList.takeWhile Char.isDigit, rest0.takeWhile isSpaceChar, nm0,
              ?_, by simpa using hds, fun d hd => mem_takeWhile_prop hd,
              hwsne, hwsall, hnm0ne, hnm0head, hi.symm, hnm.symm⟩
            conv_lhs => rw [← List.takeWhile_append_dropWhile Char.isDigit l.toList]
            rw [heq, ← hcat]
          · exfalso
            have hfull : l.toList =
                ((l.toList.takeWhile Char.isDigit) ++ ['.']) ++ rest0 := by
              conv_lhs => rw [← List.takeWhile_append_dropWhile Char.isDigit l.toList]
              rw [heq]
              simp
            obtain ⟨x, hx, hxs⟩ := getLast?_suffix_all hfull hne hallsp
            rw [strip_fix_last hstrip hx] at hxs
            cases hxs
        next hm => cases h
      next heq2 => cases h
  · rintro ⟨ds, ws, nmL, hcs, hds, hdig, hws, hwsall, hnml, hnmhead, hi, hnm⟩
    subst hi hnm
    have htd := takeWhile_all_head_neg (p := Char.isDigit) hdig
      (b := '.' :: (ws ++ nmL)) (by
        intro c rest hb
        injection hb with h1 h2
        subst h1
        decide)
    have htd1 : l.toList.takeWhile Char.isDigit = ds := by rw [hcs]; exact htd.1
    have htd2 : l.toList.dropWhile Char.isDigit = '.' :: (ws ++ nmL) := by
      rw [hcs]; exact htd.2
    have hm := matchSpacePlusRest_eq hws hwsall hnml hnmhead
    simp only [parseRowNum, htd1, htd2, hm]
    rw [if_neg (by simpa using hds)]

theorem parseGridRef_iff {l : String} (hstrip : pyStrip l = l) (i c : Nat) (nm : String) :
    parseGridRef l = some (i, c, nm) ↔
    ∃ ds letter dot ws nmL,
      l.toList = ds ++ '.' :: letter :: (dot ++ (ws ++ nmL)) ∧
      ds ≠ [] ∧ (∀ d ∈ ds, d.isDigit = true) ∧
      'a' ≤ letter ∧ letter ≤ 'z' ∧ (dot = [] ∨ dot = ['.']) ∧
      ws ≠ [] ∧ (∀ x ∈ ws, isSpaceChar x = true) ∧
      nmL ≠ [] ∧ (∀ x r2, nmL = x :: r2 → isSpaceChar x = false) ∧
      i = digitsToNat ds ∧ c = letter.toNat - 'a'.toNat ∧ nm = String.mk nmL := by
  constructor
  · intro h
    simp only [parseGridRef] at h
    split at h
    · cases h
    next hds =>
      split at h
      next c0 rest0 heq =>
        split at h
        next hguard =>
          rw [Bool.and_eq_true, decide_eq_true_eq, decide_eq_true_eq] at hguard
          split at h
          next nm0 hm =>
            have hout : digitsToNat (l.toList.takeWhile Char.isDigit) = i ∧
                c0.toNat - 'a'.toNat = c ∧ String.mk nm0 = nm := by simpa using h
            have hfull0 : l.toList =
                (l.toList.takeWhile Char.isDigit) ++ '.' :: c0 :: rest0 := by
              conv_lhs => rw [← List.takeWhile_append_dropWhile Char.isDigit l.toList]
              rw [heq]
            split at hm
            next r2 =>
              rcases matchSpacePlusRest_some hm with
                ⟨hcat, hwsne, hwsall, hnm0ne, hnm0head⟩ | ⟨hne, hallsp, hlen, hnmval⟩
              · refine ⟨l.toList.takeWhile Char.isDigit, c0, ['.'],
                  r2.takeWhile isSpaceChar, nm0, ?_, by simpa using hds,
                  fun d hd => mem_takeWhile_prop hd, hguard.1, hguard.2, Or.inr rfl,
                  hwsne, hwsall, hnm0ne, hnm0head,
                  hout.1.symm, hout.2.1.symm, hout.2.2.symm⟩
                conv_lhs => rw [hfull0]
                rw [← hcat]
                simp
              · exfalso
                have hfull : l.toList =
                    ((l.toList.takeWhile Char.isDigit) ++ ['.', c0, '.']) ++ r2 := by
                  conv_lhs => rw [hfull0]
                  simp [List.append_assoc]
                obtain ⟨x, hx, hxs⟩ := getLast?_suffix_all hfull hne hallsp
                rw [strip_fix_last hstrip hx] at hxs
                cases hxs
            next hnotdot =>
              rcases matchSpacePlusRest_some hm with
                ⟨hcat, hwsne, hwsall, hnm0ne, hnm0head⟩ | ⟨hne, hallsp, hlen, hnmval⟩
              · refine ⟨l.toList.takeWhile Char.isDigit, c0, [],
                  rest0.takeWhile isSpaceChar, nm0, ?_, by simpa using hds,
                  fun d hd => mem_takeWhile_prop hd, hguard.1, hguard.2, Or.inl rfl,
                  hwsne, hwsall, hnm0ne, hnm0head,
                  hout.1.symm, hout.2.1.symm, hout.2.2.symm⟩
                conv_lhs => rw [hfull0]
                rw [← hcat]
                simp
              · exfalso
                have hfull : l.toList =
                    ((l.toList.takeWhile Char.isDigit) ++ ['.', c0]) ++ rest0 := by
                  conv_lhs => rw [hfull0]
                  simp [List.append_assoc]
                obtain ⟨x, hx, hxs⟩ := getLast?_suffix_all hfull hne hallsp
                rw [strip_fix_last hstrip hx] at hxs
                cases hxs
          next hm => cases h
        next hguard => cases h
      next heq2 => cases h
  · rintro ⟨ds, letter, dot, ws, nmL, hcs, hds, hdig, hla, hlz, hdot, hws, hwsall,
      hnml, hnmhead, hi, hc, hnm⟩
    subst hi hc hnm
    have htd := takeWhile_all_head_neg (p := Char.isDigit) hdig
      (b := '.' :: letter :: (dot ++ (ws ++ nmL))) (by
        intro c0 rest hb
        injection hb with h1 h2
        subst h1
        decide)
    have htd1 : l.toList.takeWhile Char.isDigit = ds := by rw [hcs]; exact htd.1
    have htd2 : l.toList.dropWhile Char.isDigit =
        '.' :: letter :: (dot ++ (ws ++ nmL)) := by rw [hcs]; exact htd.2
    have hm := matchSpacePlusRest_eq hws hwsall hnml hnmhead
    rcases hdot with rfl | rfl
    · obtain ⟨wh, wt, rfl⟩ : ∃ wh wt, ws = wh :: wt := by
        cases ws with
        | nil => exact absurd rfl hws
        | cons wh wt => exact ⟨wh, wt, rfl⟩
      have hwh : isSpaceChar wh = true := hwsall wh (by simp)
      have hne : wh ≠ '.' := by
        intro he
        rw [he] at hwh
        cases hwh
      simp only [parseGridRef, htd1, htd2, List.nil_append, List.cons_append] at hm ⊢
      rw [if_neg (by simpa using hds)]
      rw [if_pos (by simp [hla, hlz])]
      simp [hne, hm]
    · simp only [parseGridRef, htd1, htd2, List.cons_append, List.nil_append] at hm ⊢
      rw [if_neg (by simpa using hds)]
      rw [if_pos (by simp [hla, hlz])]
      simp [hm]

theorem stripped_of_suffix {l : String} (hstrip : pyStrip l = l) {A nmL : List Char}
    (hfull : l.toList = A ++ nmL) (hnml : nmL ≠ [])
    (hhead : ∀ x r2, nmL = x :: r2 → isSpaceChar x = false) :
    pyStrip (String.mk nmL) = String.mk nmL := by
  unfold pyStrip
  congr 1
  rw [show (String.mk nmL).toList = nmL from rfl]
  apply pyStripL_eq_self
  · intro x hx
    cases nmL with
    | nil => cases hx
    | cons y t =>
      have hyx : y = x := by simpa using hx
      subst hyx
      exact hhead y t rfl
  · intro x hx
    have hlx : l.toList.getLast? = some x := by
      rw [hfull, List.getLast?_append, hx]
      rfl
    exact strip_fix_last hstrip hlx

theorem parseGridRef_name_stripped {l : String} (hstrip : pyStrip l = l) {i c : Nat}
    {nm : String} (h : parseGridRef l = some (i, c, nm)) : pyStrip nm = nm := by
  obtain ⟨ds, letter, dot, ws, nmL, hcs, -, -, -, -, -, -, -, hnml, hnmhead, -, -, hnm⟩ :=
    (parseGridRef_iff hstrip i c nm).mp h
  subst hnm
  refine stripped_of_suffix hstrip (A := ds ++ '.' :: letter :: (dot ++ ws)) ?_ hnml hnmhead
  rw [hcs]
  simp [List.append_assoc]

theorem parseRowNum_name_stripped {l : String} (hstrip : pyStrip l = l) {i : Nat}
    {nm : String} (h : parseRowNum l = some (i, nm)) : pyStrip nm = nm := by
  obtain ⟨ds, ws, nmL, hcs, -, -, -, -, hnml, hnmhead, -, hnm⟩ :=
    (parseRowNum_iff hstrip i nm).mp h
  subst hnm
  refine stripped_of_suffix hstrip (A := ds ++ '.' :: ws) ?_ hnml hnmhead
  rw [hcs]
  simp [List.append_assoc]

/-- C7: in GridRef format, a trimmed line parses exactly when it has the shape
`<digits>.<lowercase-letter>[.]?<whitespace><label-text>`; a matching line
yields exactly one record with `row = intPart - 1`, `col = letterIndex`
(`a` is 0, `b` is 1, ...), `x = col*tileSize`, `y = row*tileSize`,
`w = h = tileSize` and the label text verbatim as name; a non-matching line
yields no record; and the line `"3.b label"` with `tileSize = 32` yields the
single record `("label", 32, 64, 32, 32)`. -/
theorem gridref_line_records :
    (∀ (l : String), pyStrip l = l → ∀ (i c : Nat) (nm : String),
      (parseGridRef l = some (i, c, nm) ↔
        ∃ ds letter dot ws nmL,
          l.toList = ds ++ '.' :: letter :: (dot ++ (ws ++ nmL)) ∧
          ds ≠ [] ∧ (∀ d ∈ ds, d.isDigit = true) ∧
          'a' ≤ letter ∧ letter ≤ 'z' ∧ (dot = [] ∨ dot = ['.']) ∧
          ws ≠ [] ∧ (∀ x ∈ ws, isSpaceChar x = true) ∧
          nmL ≠ [] ∧ (∀ x r2, nmL = x :: r2 → isSpaceChar x = false) ∧
          i = digitsToNat ds ∧ c = letter.toNat - 'a'.toNat ∧ nm = String.mk nmL)) ∧
    (∀ (ts : Nat) (l : String), pyStrip l = l → ∀ (i c : Nat) (nm : String),
      parseGridRef l = some (i, c, nm) →
      pyStrip nm = nm ∧
      gridRefLine ts l =
        [{ name := nm, x := ((c * ts : Nat) : Int),
           y := ((i : Int) - 1) * (ts : Int), w := ts, h := ts }]) ∧
    (∀ (ts : Nat) (l : String), parseGridRef l = none → gridRefLine ts l = []) ∧
    legacyAtlasEntries 32 96 96 ["3.b label"] =
      [{ name := "label", x := 32, y := 64, w := 32, h := 32 }] := by
  refine ⟨fun l hs i c nm => parseGridRef_iff hs i c nm, ?_, ?_, by decide⟩
  · intro ts l hs i c nm h
    have hnm := parseGridRef_name_stripped hs h
    refine ⟨hnm, ?_⟩
    rw [gridRefLine_eq_of_parse h, hnm]
  · intro ts l h
    exact gridRefLine_eq_nil h

/-- Witness for C7 at the line `"3.b label"`. -/
theorem gridref_line_records_witness :
    pyStrip "label" = "label" ∧
    gridRefLine 32 "3.b label" =
      [{ name := "label", x := ((1 * 32 : Nat) : Int),
         y := ((3 : Int) - 1) * (32 : Int), w := 32, h := 32 }] :=
  gridref_line_records.2.1 32 "3.b label" (by decide) 3 1 "label" (by decide)

/-- C8: in RowLabel format, a trimmed line parses exactly when it has the
shape `<digits>.<whitespace><label-text>`; a matching line with integer part
`intPart` yields exactly `cols` records, one per column `c` in `0..cols-1`,
named `"{labelText} [frame {c}]"`, at `x = c*tileSize`,
`y = (intPart-1)*tileSize`, `w = h = tileSize`; a non-matching line yields no
record; and the line `"2. walk"` with `cols = 4` and `tileSize = 16` yields
four records `"walk [frame 0]"` .. `"walk [frame 3]"`, all at `y = 16`, with
`x` in `{0, 16, 32, 48}`. -/
theorem rowlabel_line_records :
    (∀ (l : String), pyStrip l = l → ∀ (i : Nat) (nm : String),
      (parseRowNum l = some (i, nm) ↔
        ∃ ds ws nmL, l.toList = ds ++ '.' :: (ws ++ nmL) ∧ ds ≠ [] ∧
          (∀ d ∈ ds, d.isDigit = true) ∧ ws ≠ [] ∧
          (∀ x ∈ ws, isSpaceChar x = true) ∧
          nmL ≠ [] ∧ (∀ x r2, nmL = x :: r2 → isSpaceChar x = false) ∧
          i = digitsToNat ds ∧ nm = String.mk nmL)) ∧
    (∀ (ts cols : Nat) (l : String), pyStrip l = l → ∀ (i : Nat) (nm : String),
      parseRowNum l = some (i, nm) →
      pyStrip nm = nm ∧
      (rowLabelLine ts cols l).length = cols ∧
      rowLabelLine ts cols l = (List.range cols).map fun c =>
        { name := nm ++ " [frame " ++ toString c ++ "]",
          x := ((c * ts : Nat) : Int), y := ((i : Int) - 1) * (ts : Int),
          w := ts, h := ts }) ∧
    (∀ (ts cols : Nat) (l : String), parseRowNum l = none → rowLabelLine ts cols l = []) ∧
    legacyAtlasEntries 16 64 64 ["2. walk"] =
      [{ name := "walk [frame 0]", x := 0, y := 16, w := 16, h := 16 },
       { name := "walk [frame 1]", x := 16, y := 16, w := 16, h := 16 },
       { name := "walk [frame 2]", x := 32, y := 16, w := 16, h := 16 },
       { name := "walk [frame 3]", x := 48, y := 16, w := 16, h := 16 }] := by
  refine ⟨fun l hs i nm => parseRowNum_iff hs i nm, ?_, ?_, by decide⟩
  · intro ts cols l hs i nm h
    have hnm := parseRowNum_name_stripped hs h
    refine ⟨hnm, ?_, ?_⟩
    · rw [rowLabelLine_eq_of_parse h]
      simp
    · rw [rowLabelLine_eq_of_parse h, hnm]
  · intro ts cols l h
    exact rowLabelLine_eq_nil h

/-- Witness for C8 at the line `"2. walk"`. -/
theorem rowlabel_line_records_witness :
    pyStrip "walk" = "walk" ∧
    (rowLabelLine 16 4 "2. walk").length = 4 ∧
    rowLabelLine 16 4 "2. walk" = (List.range 4).map fun c =>
      { name := "walk" ++ " [frame " ++ toString c ++ "]",
        x := ((c * 16 : Nat) : Int), y := ((2 : Int) - 1) * (16 : Int),
        w := 16, h := 16 } :=
  rowlabel_line_records.2.1 16 4 "2. walk" (by decide) 2 "walk" (by decide)

/-! Classification lemmas. -/

theorem matchesRowCol_iff (l : String) : matchesRowCol l = true ↔ RowColStart l := by
  constructor
  · intro h
    simp only [matchesRowCol] at h
    split at h
    next c tail heq =>
      rw [Bool.and_eq_true, Bool.and_eq_true] at h
      obtain ⟨hds, hla, hlz⟩ := h
      refine ⟨l.toList.takeWhile Char.isDigit, c, tail, ?_, by simpa using hds,
        fun d hd => mem_takeWhile_prop hd, by simpa using hla, by simpa using hlz⟩
      conv_lhs => rw [← List.takeWhile_append_dropWhile Char.isDigit l.toList]
      rw [heq]
    next => cases h
  · rintro ⟨ds, c, rest, hcs, hds, hdig, hla, hlz⟩
    have htd := takeWhile_all_head_neg (p := Char.isDigit) hdig
      (b := '.' :: c :: rest) (by
        intro c0 r hb
        injection hb with h1 h2
        subst h1
        decide)
    have htd1 : l.toList.takeWhile Char.isDigit = ds := by rw [hcs]; exact htd.1
    have htd2 : l.toList.dropWhile Char.isDigit = '.' :: c :: rest := by
      rw [hcs]; exact htd.2
    simp only [matchesRowCol, htd1, htd2]
    simp [hds, hla, hlz]

theorem matchesRowNum_iff (l : String) : matchesRowNum l = true ↔ RowNumStart l := by
  constructor
  · intro h
    simp only [matchesRowNum] at h
    split at h
    next c tail heq =>
      rw [Bool.and_eq_true] at h
      obtain ⟨hds, hsp⟩ := h
      refine ⟨l.toList.takeWhile Char.isDigit, c, tail, ?_, by simpa using hds,
        fun d hd => mem_takeWhile_prop hd, hsp⟩
      conv_lhs => rw [← List.takeWhile_append_dropWhile Char.isDigit l.toList]
      rw [heq]
    next => cases h
  · rintro ⟨ds, c, rest, hcs, hds, hdig, hsp⟩
    have htd := takeWhile_all_head_neg (p := Char.isDigit) hdig
      (b := '.' :: c :: rest) (by
        intro c0 r hb
        injection hb with h1 h2
        subst h1
        decide)
    have htd1 : l.toList.takeWhile Char.isDigit = ds := by rw [hcs]; exact htd.1
    have htd2 : l.toList.dropWhile Char.isDigit = '.' :: c :: rest := by
      rw [hcs]; exact htd.2
    simp only [matchesRowNum, htd1, htd2]
    simp [hds, hsp]

/-- C1 counterexample: the file whose only non-empty line is `"1.a"` is
classified GridRef by the code, although no line in it matches the spec's
full GridRef line shape (there is no `<space><label-text>` part: the line does
not parse), and no line matches the RowLabel shape either, so classification
by the spec's shapes would give PlainLabel. -/
theorem classify_format_counterexample :
    classifyFormat (legacyLines ["1.a"]) = LabelFormat.GridRef ∧
    specClassifyFormat (legacyLines ["1.a"]) = LabelFormat.PlainLabel ∧
    parseGridRef "1.a" = none ∧ parseRowNum "1.a" = none := by
  refine ⟨by decide, by decide, by decide, by decide⟩

/-- C1 amended: the file-wide format is classified once, in priority order
with first match winning, but by prefix tests rather than the full line
shapes: GridRef if any line starts with `<digits>.<single-lowercase-letter>`
(whatever follows the letter); RowLabel (checked only when no line passes the
GridRef prefix test) if any line starts with `<digits>.<whitespace>`;
PlainLabel otherwise. -/
theorem classify_format_sniff (lines : List String) :
    (classifyFormat lines = LabelFormat.GridRef ↔ ∃ l ∈ lines, RowColStart l) ∧
    (classifyFormat lines = LabelFormat.RowLabel ↔
      (∀ l ∈ lines, ¬ RowColStart l) ∧ ∃ l ∈ lines, RowNumStart l) ∧
    (classifyFormat lines = LabelFormat.PlainLabel ↔
      (∀ l ∈ lines, ¬ RowColStart l) ∧ (∀ l ∈ lines, ¬ RowNumStart l)) := by
  have hgrid : lines.any matchesRowCol = true ↔ ∃ l ∈ lines, RowColStart l := by
    rw [List.any_eq_true]
    constructor
    · rintro ⟨l, hl, h⟩
      exact ⟨l, hl, (matchesRowCol_iff l).mp h⟩
    · rintro ⟨l, hl, h⟩
      exact ⟨l, hl, (matchesRowCol_iff l).mpr h⟩
  have hrow : lines.any matchesRowNum = true ↔ ∃ l ∈ lines, RowNumStart l := by
    rw [List.any_eq_true]
    constructor
    · rintro ⟨l, hl, h⟩
      exact ⟨l, hl, (matchesRowNum_iff l).mp h⟩
    · rintro ⟨l, hl, h⟩
      exact ⟨l, hl, (matchesRowNum_iff l).mpr h⟩
  have hgridneg : lines.any matchesRowCol = false ↔ ∀ l ∈ lines, ¬ RowColStart l := by
    constructor
    · intro hf l hl hrc
      have hb : lines.any matchesRowCol = true := hgrid.mpr ⟨l, hl, hrc⟩
      rw [hf] at hb
      cases hb
    · intro hall
      cases hb : lines.any matchesRowCol
      · rfl
      · obtain ⟨l, hl, hrc⟩ := hgrid.mp hb
        exact absurd hrc (hall l hl)
  have hrowneg : lines.any matchesRowNum = false ↔ ∀ l ∈ lines, ¬ RowNumStart l := by
    constructor
    · intro hf l hl hrn
      have hb : lines.any matchesRowNum = true := hrow.mpr ⟨l, hl, hrn⟩
      rw [hf] at hb
      cases hb
    · intro hall
      cases hb : lines.any matchesRowNum
      · rfl
      · obtain ⟨l, hl, hrn⟩ := hrow.mp hb
        exact absurd hrn (hall l hl)
  by_cases h1 : lines.any matchesRowCol
  · have hcls : classifyFormat lines = LabelFormat.GridRef := by
      simp [classifyFormat, h1]
    refine ⟨by simp [hcls]; exact hgrid.mp h1, ?_, ?_⟩
    · rw [hcls]
      constructor
      · intro hcontra
        cases hcontra
      · rintro ⟨hall, -⟩
        obtain ⟨l0, hl0, hrc⟩ := hgrid.mp h1
        exact absurd hrc (hall l0 hl0)
    · rw [hcls]
      constructor
      · intro hcontra
        cases hcontra
      · rintro ⟨hall, -⟩
        obtain ⟨l0, hl0, hrc⟩ := hgrid.mp h1
        exact absurd hrc (hall l0 hl0)
  · have h1f : lines.any matchesRowCol = false := by
      cases hb : lines.any matchesRowCol
      · rfl
      · exact absurd hb h1
    by_cases h2 : lines.any matchesRowNum
    · have hcls : classifyFormat lines = LabelFormat.RowLabel := by
        simp [classifyFormat, h1f, h2]
      refine ⟨?_, ?_, ?_⟩
      · rw [hcls]
        constructor
        · intro hcontra
          cases hcontra
        · rintro ⟨l0, hl0, hrc⟩
          exact absurd hrc ((hgridneg.mp h1f) l0 hl0)
      · rw [hcls]
        simp only [true_iff]
        exact ⟨hgridneg.mp h1f, hrow.mp h2⟩
      · rw [hcls]
        constructor
        · intro hcontra
          cases hcontra
        · rintro ⟨-, hall⟩
          obtain ⟨l0, hl0, hrn⟩ := hrow.mp h2
          exact absurd hrn (hall l0 hl0)
    · have h2f : lines.any matchesRowNum = false := by
        cases hb : lines.any matchesRowNum
        · rfl
        · exact absurd hb h2
      have hcls : classifyFormat lines = LabelFormat.PlainLabel := by
        simp [classifyFormat, h1f, h2f]
      refine ⟨?_, ?_, ?_⟩
      · rw [hcls]
        constructor
        · intro hcontra
          cases hcontra
        · rintro ⟨l0, hl0, hrc⟩
          exact absurd hrc ((hgridneg.mp h1f) l0 hl0)
      · rw [hcls]
        constructor
        · intro hcontra
          cases hcontra
        · rintro ⟨-, l0, hl0, hrn⟩
          exact absurd hrn ((hrowneg.mp h2f) l0 hl0)
      · rw [hcls]
        simp only [true_iff]
        exact ⟨hgridneg.mp h1f, hrowneg.mp h2f⟩

/-- Witness for the amended C1 at the file `["1.a"]`. -/
theorem classify_format_sniff_witness :
    classifyFormat ["1.a"] = LabelFormat.GridRef :=
  (classify_format_sniff ["1.a"]).1.mpr
    ⟨"1.a", by decide,
      ⟨['1'], 'a', [], by decide, by decide, by decide, by decide, by decide⟩⟩

set_option maxRecDepth 8192 in
/-- C4 counterexample: a 33x32 sheet is not evenly divisible by the 32-pixel
tile size, yet the translator does not skip it: the grid is floored to 1x1,
one record is produced, and an atlas text is generated. -/
theorem uneven_sheet_counterexample :
    ¬ (32 ∣ 33) ∧
    legacyAtlasEntries 32 33 32 ["foo"] =
      [{ name := "foo [row 0, col 0]", x := 0, y := 0, w := 32, h := 32 }] ∧
    legacyAtlasText "autotiles" 32 33 32 ["foo"] =
      "# Sprite Sheet Atlas: 32rogues-autotiles.png\n# Total sprites: 1\n# Sheet size: 33x32\n# Icon size: 32x32\n# Format: name\\tx\\ty\\twidth\\theight\nfoo [row 0, col 0]\t0\t0\t32\t32\n" := by
  refine ⟨by omega, by decide, by decide⟩

/-- C4 amended: the translator performs no divisibility check: `cols` and
`rows` are floor divisions, and a sheet whose pixel dimensions are not
multiples of the tile size is processed exactly as if its dimensions were
rounded down to whole tiles; it is never skipped (only sheets with missing
files are skipped, before this code runs). -/
theorem uneven_sheet_floors (ts W H : Nat) (raw : List String) :
    legacyAtlasEntries ts W H raw =
      legacyAtlasEntries ts (ts * (W / ts)) (ts * (H / ts)) raw := by
  have hW : ts * (W / ts) / ts = W / ts := by
    rcases Nat.eq_zero_or_pos ts with rfl | hts
    · simp
    · exact Nat.mul_div_cancel_left _ hts
  have hH : ts * (H / ts) / ts = H / ts := by
    rcases Nat.eq_zero_or_pos ts with rfl | hts
    · simp
    · exact Nat.mul_div_cancel_left _ hts
  simp only [legacyAtlasEntries, hW, hH]

/-- C10: the packer writes nothing when its input collection is empty, while
the legacy translator always writes an atlas once classification runs, even
when zero records were produced: for the single-line file `"1.a"` (classified
GridRef although the line does not fully parse) the header states
"Total sprites: 0" and the body after the header is a single empty line —
`"\n".join` of zero records plus the trailing newline. In general, whenever
the legacy record list is empty, the atlas text is still the full header
(with count 0) followed by one empty line. -/
theorem empty_atlas_behaviour :
    create_spritesheet_from_dir [] 32 32 "out.png" none = none ∧
    classifyFormat (legacyLines ["1.a"]) = LabelFormat.GridRef ∧
    legacyAtlasEntries 32 32 32 ["1.a"] = [] ∧
    legacyAtlasText "items" 32 32 32 ["1.a"] =
      "# Sprite Sheet Atlas: 32rogues-items.png\n# Total sprites: 0\n# Sheet size: 32x32\n# Icon size: 32x32\n# Format: name\\tx\\ty\\twidth\\theight\n\n" ∧
    (∀ (name : String) (ts W H : Nat) (raw : List String),
      legacyAtlasEntries ts W H raw = [] →
      legacyAtlasText name ts W H raw =
        atlasFileText ("32rogues-" ++ name ++ ".png") 0 W H ts ts []) := by
  refine ⟨by decide, by decide, by decide, by decide, ?_⟩
  intro name ts W H raw h
  simp only [legacyAtlasText, h]
  rfl

/-- Witness for C10's general clause at the `"1.a"` file. -/
theorem empty_atlas_behaviour_witness :
    legacyAtlasText "items" 32 32 32 ["1.a"] =
      atlasFileText ("32rogues-" ++ "items" ++ ".png") 0 32 32 32 32 [] :=
  empty_atlas_behaviour.2.2.2.2 "items" 32 32 32 ["1.a"] (by decide)

end Sprites
